import Mathlib

/-!
Shallow embedding of the Wordle solver (`src/main.rs`) and verification of
its specification claims.

Rust types are mapped as follows: `char` becomes `Char`, `[char; 5]` (the
`Word` alias) becomes `List Char` (the length-5 invariant is carried as a
hypothesis where it matters; an out-of-range index, which would panic in
Rust, reads the default character `' '`), `Vec<T>` becomes `List T`, and
`usize` becomes `Nat`.  The recursive solver `best_guess` uses general
recursion in Rust, so it is embedded with an explicit fuel parameter; the
Rust `panic!()` on an empty candidate set is modelled as the
`invalidConstraintState` error and fuel exhaustion (divergence) as the
`outOfFuel` error of an `Except` result.
-/

namespace Wordle

/-- `WORD_LENGTH` constant from the source. -/
def WORD_LENGTH : Nat := 5

/-- The `Feedback` enum: `Correct` / `Used` / `NotUsed`
(the spec calls these `Exact` / `Present` / `Absent`). -/
inductive Feedback where
  | Correct
  | Used
  | NotUsed
deriving DecidableEq, Repr, Inhabited

/-- The `Fact` struct: one unit of feedback. -/
structure Fact where
  letter : Char
  position : Nat
  feedback : Feedback
deriving DecidableEq, Repr, Inhabited

abbrev Word := List Char
abbrev Words := List Word
abbrev Facts := List Fact

/-- `build_fact` from the source. -/
def build_fact (f : Feedback) (l : Char) (p : Nat) : Fact :=
  { letter := l, position := p, feedback := f }

/-- The `GuessResult` struct. -/
structure GuessResult where
  guess : Word
  guesses : Nat
  num_candidates : Nat
deriving DecidableEq, Repr, Inhabited

/-- `check` from the source: compare an answer against a guess, producing one
fact per position `i < WORD_LENGTH`. -/
def check (answer : Word) (guess : Word) : Facts :=
  (List.range WORD_LENGTH).map fun i =>
    if guess.getD i ' ' = answer.getD i ' ' then
      build_fact Feedback.Correct (guess.getD i ' ') i
    else if answer.contains (guess.getD i ' ') then
      build_fact Feedback.Used (guess.getD i ' ') i
    else
      build_fact Feedback.NotUsed (guess.getD i ' ') i

/-- The body of the closure inside `filter_words`: does word `w` violate
fact `f`?  (The Rust code keeps `w` iff no fact is violated.) -/
def factViolated (w : Word) (f : Fact) : Bool :=
  match f.feedback with
  | Feedback.Correct => w.getD f.position ' ' != f.letter
  | Feedback.Used => w.getD f.position ' ' == f.letter || !(w.contains f.letter)
  | Feedback.NotUsed => w.contains f.letter

/-- `filter_words` from the source: keep the words violating no fact,
preserving order. -/
def filter_words (words : Words) (facts : Facts) : Words :=
  words.filter fun w => !(facts.any fun f => factViolated w f)

/-- Failure modes of the embedded solver: `invalidConstraintState` models the
Rust `panic!()` on an empty candidate set (and the unreachable `.unwrap()` of
the reduction), `outOfFuel` models non-termination of the unfueled Rust
recursion. -/
inductive SolverError where
  | invalidConstraintState
  | outOfFuel
deriving DecidableEq, Repr

/-- One unfolding step of `best_guess`, parametric in the recursive call
`recur`.  Mirrors the Rust body: filter, the singleton and empty cases, then
for every candidate `g` sum over every candidate `w` the recursive guess
count for facts `check w g ++ facts`, and reduce keeping a later result only
when its count is strictly smaller (the sequential reading of `reduce_with`,
which is the reference tie-break). -/
def best_guess_core (recur : Words → Facts → Except SolverError GuessResult)
    (words : Words) (facts : Facts) : Except SolverError GuessResult :=
  let candidates := filter_words words facts
  if candidates.length = 1 then
    Except.ok { guess := candidates.getD 0 [], guesses := 1,
                num_candidates := candidates.length }
  else if candidates.isEmpty then
    Except.error SolverError.invalidConstraintState
  else do
    let results ← candidates.mapM fun g => do
      let gs ← candidates.foldlM (fun sum w => do
        let item ← recur candidates (check w g ++ facts)
        pure (sum + item.guesses)) 0
      pure { guess := g, guesses := 1 + gs,
             num_candidates := candidates.length : GuessResult }
    match results with
    | [] => Except.error SolverError.invalidConstraintState
    | r :: rs =>
      Except.ok (rs.foldl (fun b gr => if gr.guesses < b.guesses then gr else b) r)

/-- `best_guess` from the source, with fuel making the general recursion
structural. -/
def best_guess : Nat → Words → Facts → Except SolverError GuessResult
  | 0 => fun _ _ => Except.error SolverError.outOfFuel
  | fuel + 1 => best_guess_core (best_guess fuel)

/-- `solve` from the source (ranking mode): for each candidate opening guess
`g`, sum `best_guess` counts over every possible secret `w` in `words`. -/
def solve (fuel : Nat) (words : Words) (guesses : Words) :
    Except SolverError (List GuessResult) :=
  guesses.mapM fun g => do
    let gs ← words.foldlM (fun sum w => do
      let item ← best_guess fuel words (check w g)
      pure (sum + item.guesses)) 0
    pure { guess := g, guesses := 1 + gs,
           num_candidates := guesses.length : GuessResult }

/-- Guess count carried by a solver result; `0` for an error (only used in
contexts where every call is separately proven to succeed). -/
def guessesOf : Except SolverError GuessResult → Nat
  | Except.ok r => r.guesses
  | Except.error _ => 0

/-- The cost formula of §4.3 step 4: `cost g = 1 + Σ_w guesses(best_guess
candidates (check w g ++ facts))`, recursing over the already-filtered
candidate universe. -/
def cost (fuel : Nat) (candidates : Words) (facts : Facts) (g : Word) : Nat :=
  1 + (candidates.map fun w =>
    guessesOf (best_guess fuel candidates (check w g ++ facts))).sum

/-- Spec-side consistency predicate of §4.2: `Correct`: `w[pos] = letter`;
`Used`: `w[pos] ≠ letter` and `w` contains `letter`; `NotUsed`: `w` does not
contain `letter`. -/
def consistent_with (w : Word) (f : Fact) : Bool :=
  match f.feedback with
  | Feedback.Correct => w.getD f.position ' ' == f.letter
  | Feedback.Used => (w.getD f.position ' ' != f.letter) && w.contains f.letter
  | Feedback.NotUsed => !(w.contains f.letter)

/-- The fact produced by `check answer guess` at position `i` (the body of the
map inside `check`). -/
def checkFactAt (answer guess : Word) (i : Nat) : Fact :=
  if guess.getD i ' ' = answer.getD i ' ' then
    build_fact Feedback.Correct (guess.getD i ' ') i
  else if answer.contains (guess.getD i ' ') then
    build_fact Feedback.Used (guess.getD i ' ') i
  else
    build_fact Feedback.NotUsed (guess.getD i ' ') i

/-- Concrete words used as evaluation witnesses. -/
def wApple : Word := ['a', 'p', 'p', 'l', 'e']

def wAngle : Word := ['a', 'n', 'g', 'l', 'e']

def wAdobe : Word := ['a', 'd', 'o', 'b', 'e']

/-! ### Generic helper lemmas about `Except`, `mapM`, `foldlM` and the
minimum-selecting fold -/

theorem except_pure_eq_ok {ε α : Type} (a : α) :
    (pure a : Except ε α) = Except.ok a := rfl

theorem except_bind_ok {ε α β : Type} (e : Except ε α) (f : α → Except ε β) (b : β) :
    (e >>= f) = Except.ok b ↔ ∃ a, e = Except.ok a ∧ f a = Except.ok b := by
  cases e with
  | error err => simp [Bind.bind, Except.bind]
  | ok a => simp [Bind.bind, Except.bind]

theorem mapM_ok_forall₂ {ε α β : Type} (f : α → Except ε β) (l : List α) :
    ∀ rs : List β, l.mapM f = Except.ok rs →
      List.Forall₂ (fun a b => f a = Except.ok b) l rs := by
  induction l with
  | nil =>
    intro rs h
    rw [List.mapM_nil, except_pure_eq_ok] at h
    cases h
    exact List.Forall₂.nil
  | cons a t ih =>
    intro rs h
    rw [List.mapM_cons] at h
    rcases (except_bind_ok _ _ _).mp h with ⟨b, hb, h2⟩
    rcases (except_bind_ok _ _ _).mp h2 with ⟨bs, hbs, h3⟩
    rw [except_pure_eq_ok] at h3
    cases h3
    exact List.Forall₂.cons hb (ih bs hbs)

theorem mapM_ok_of_forall {ε α β : Type} (f : α → Except ε β) (l : List α)
    (h : ∀ a ∈ l, ∃ b, f a = Except.ok b) :
    ∃ rs, l.mapM f = Except.ok rs := by
  induction l with
  | nil => exact ⟨[], by rw [List.mapM_nil, except_pure_eq_ok]⟩
  | cons a t ih =>
    rcases h a (by simp) with ⟨b, hb⟩
    rcases ih (fun x hx => h x (by simp [hx])) with ⟨bs, hbs⟩
    refine ⟨b :: bs, ?_⟩
    rw [List.mapM_cons, hb]
    show (Except.ok b >>= fun y => t.mapM f >>= fun ys => pure (y :: ys)) = _
    rw [show ∀ (k : β → Except ε (List β)), (Except.ok b >>= k) = k b from fun _ => rfl,
      hbs]
    rfl

theorem foldlM_guesses_ok {α : Type} (F : α → Except SolverError GuessResult)
    (l : List α) :
    ∀ init n : Nat,
      l.foldlM (fun sum w => do
        let item ← F w
        pure (sum + item.guesses)) init = Except.ok n →
      (∀ a ∈ l, ∃ b, F a = Except.ok b) ∧
        n = init + (l.map fun a => guessesOf (F a)).sum := by
  induction l with
  | nil =>
    intro init n h
    rw [List.foldlM_nil, except_pure_eq_ok] at h
    cases h
    simp
  | cons a t ih =>
    intro init n h
    rw [List.foldlM_cons] at h
    rcases (except_bind_ok _ _ _).mp h with ⟨x, hx, h2⟩
    rcases (except_bind_ok _ _ _).mp hx with ⟨b, hb, h3⟩
    rw [except_pure_eq_ok] at h3
    cases h3
    rcases ih _ _ h2 with ⟨hall, hsum⟩
    constructor
    · intro c hc
      rcases List.mem_cons.mp hc with hc | hc
      · exact ⟨b, hc ▸ hb⟩
      · exact hall c hc
    · simp only [List.map_cons, List.sum_cons, guessesOf, hb] at hsum ⊢
      omega

theorem foldlM_guesses_total {α : Type} (F : α → Except SolverError GuessResult)
    (l : List α) (h : ∀ a ∈ l, ∃ b, F a = Except.ok b) :
    ∀ init : Nat,
      l.foldlM (fun sum w => do
        let item ← F w
        pure (sum + item.guesses)) init
        = Except.ok (init + (l.map fun a => guessesOf (F a)).sum) := by
  induction l with
  | nil => intro init; simp [List.foldlM_nil]; rfl
  | cons a t ih =>
    intro init
    rcases h a (by simp) with ⟨b, hb⟩
    rw [List.foldlM_cons]
    have hstep : (do
        let item ← F a
        pure (init + item.guesses) : Except SolverError Nat)
        = Except.ok (init + b.guesses) := by
      rw [show (do
          let item ← F a
          pure (init + item.guesses) : Except SolverError Nat)
          = F a >>= fun item => pure (init + item.guesses) from rfl, hb]
      rfl
    rw [hstep]
    show (Except.ok (init + b.guesses) >>=
      fun x => t.foldlM (fun sum w => do
        let item ← F w
        pure (sum + item.guesses)) x) = _
    rw [show ∀ (k : Nat → Except SolverError Nat),
      (Except.ok (init + b.guesses) >>= k) = k (init + b.guesses) from fun _ => rfl]
    rw [ih (fun x hx => h x (by simp [hx]))]
    simp only [List.map_cons, List.sum_cons, guessesOf, hb]
    congr 1
    omega

theorem foldl_min_first {α : Type} (key : α → Nat) (d : α) (a : α) (l : List α) :
    ∃ i, i < (a :: l).length ∧
      (a :: l).getD i d = l.foldl (fun b x => if key x < key b then x else b) a ∧
      (∀ j, j < (a :: l).length →
        key (l.foldl (fun b x => if key x < key b then x else b) a)
          ≤ key ((a :: l).getD j d)) ∧
      ∀ j, j < i →
        key (l.foldl (fun b x => if key x < key b then x else b) a)
          < key ((a :: l).getD j d) := by
  induction l generalizing a with
  | nil =>
    refine ⟨0, by simp, rfl, ?_, by omega⟩
    intro j hj
    have hj0 : j = 0 := by simp at hj; omega
    subst hj0
    simp [List.foldl_nil]
  | cons x t ih =>
    rw [List.foldl_cons]
    by_cases hP : key x < key a
    · rw [if_pos hP]
      rcases ih x with ⟨i, hi, heq, hmin, hstrict⟩
      refine ⟨i + 1, by simpa using hi, by simpa using heq, ?_, ?_⟩
      · intro j hj
        match j with
        | 0 =>
          have h0 := hmin 0 (by simp)
          simp only [List.getD_cons_zero] at h0 ⊢
          omega
        | j + 1 =>
          have := hmin j (by simp at hj ⊢; omega)
          simpa using this
      · intro j hj
        match j with
        | 0 =>
          have h0 := hmin 0 (by simp)
          simp only [List.getD_cons_zero] at h0 ⊢
          omega
        | j + 1 =>
          have := hstrict j (by omega)
          simpa using this
    · rw [if_neg hP]
      rcases ih a with ⟨i, hi, heq, hmin, hstrict⟩
      match i with
      | 0 =>
        refine ⟨0, by simp, by simpa using heq, ?_, by omega⟩
        intro j hj
        match j with
        | 0 => simpa using hmin 0 (by simp)
        | 1 =>
          have h0 := hmin 0 (by simp)
          simp only [List.getD_cons_zero] at h0 ⊢
          simp only [List.getD_cons_succ, List.getD_cons_zero]
          omega
        | j + 2 =>
          have := hmin (j + 1) (by simp at hj ⊢; omega)
          simpa using this
      | i + 1 =>
        refine ⟨i + 2, by simp at hi ⊢; omega, by simpa using heq, ?_, ?_⟩
        · intro j hj
          match j with
          | 0 => simpa using hmin 0 (by simp)
          | 1 =>
            have h0 := hstrict 0 (by omega)
            simp only [List.getD_cons_zero] at h0
            simp only [List.getD_cons_succ, List.getD_cons_zero]
            omega
          | j + 2 =>
            have := hmin (j + 1) (by simp at hj ⊢; omega)
            simpa using this
        · intro j hj
          match j with
          | 0 => simpa using hstrict 0 (by omega)
          | 1 =>
            have h0 := hstrict 0 (by omega)
            simp only [List.getD_cons_zero] at h0
            simp only [List.getD_cons_succ, List.getD_cons_zero]
            omega
          | j + 2 =>
            have := hstrict (j + 1) (by omega)
            simpa using this

/-! ### Unfolding lemmas for the fueled solver -/

theorem best_guess_succ (fuel : Nat) :
    best_guess (fuel + 1) = best_guess_core (best_guess fuel) := rfl

theorem best_guess_core_one (recur : Words → Facts → Except SolverError GuessResult)
    (words : Words) (facts : Facts) (w : Word)
    (h : filter_words words facts = [w]) :
    best_guess_core recur words facts =
      Except.ok { guess := w, guesses := 1, num_candidates := 1 } := by
  unfold best_guess_core
  rw [h]
  rfl

theorem best_guess_core_nil (recur : Words → Facts → Except SolverError GuessResult)
    (words : Words) (facts : Facts)
    (h : filter_words words facts = []) :
    best_guess_core recur words facts =
      Except.error SolverError.invalidConstraintState := by
  unfold best_guess_core
  rw [h]
  rfl

theorem best_guess_core_rec (recur : Words → Facts → Except SolverError GuessResult)
    (words : Words) (facts : Facts)
    (h2 : 2 ≤ (filter_words words facts).length) :
    best_guess_core recur words facts =
      ((filter_words words facts).mapM fun g => do
        let gs ← (filter_words words facts).foldlM (fun sum w => do
          let item ← recur (filter_words words facts) (check w g ++ facts)
          pure (sum + item.guesses)) 0
        pure { guess := g, guesses := 1 + gs,
               num_candidates := (filter_words words facts).length : GuessResult })
      >>= fun results =>
        match results with
        | [] => Except.error SolverError.invalidConstraintState
        | r :: rs =>
          Except.ok (rs.foldl (fun b gr => if gr.guesses < b.guesses then gr else b) r) := by
  simp only [best_guess_core]
  rw [if_neg (by omega)]
  rw [if_neg (by
    rw [List.isEmpty_iff]
    intro hnil
    rw [hnil] at h2
    simp at h2)]

/-! ### Lemmas about `check` -/

theorem check_eq (answer guess : Word) :
    check answer guess = (List.range WORD_LENGTH).map (checkFactAt answer guess) := rfl

theorem check_length (answer guess : Word) :
    (check answer guess).length = WORD_LENGTH := by
  rw [check_eq]
  simp

theorem check_getD (answer guess : Word) (i : Nat) (hi : i < WORD_LENGTH) :
    (check answer guess).getD i default = checkFactAt answer guess i := by
  rw [check_eq]
  rw [List.getD_eq_getElem _ _ (by simpa using hi)]
  simp

theorem mem_check (answer guess : Word) (f : Fact) :
    f ∈ check answer guess ↔ ∃ i, i < WORD_LENGTH ∧ f = checkFactAt answer guess i := by
  rw [check_eq]
  simp only [List.mem_map, List.mem_range]
  constructor
  · rintro ⟨i, hi, rfl⟩
    exact ⟨i, hi, rfl⟩
  · rintro ⟨i, hi, rfl⟩
    exact ⟨i, hi, rfl⟩

/-! ### Lemmas about `filter_words` -/

theorem mem_filter_words {w : Word} {words : Words} {facts : Facts} :
    w ∈ filter_words words facts ↔
      w ∈ words ∧ (facts.any fun f => factViolated w f) = false := by
  unfold filter_words
  rw [List.mem_filter]
  simp

theorem filter_words_sublist (words : Words) (facts : Facts) :
    (filter_words words facts).Sublist words := List.filter_sublist words

theorem filter_words_nodup (words : Words) (facts : Facts) (h : words.Nodup) :
    (filter_words words facts).Nodup := List.Nodup.filter _ h

/-- The hypothetical secret `w` violates no fact produced by `check w g`. -/
theorem factViolated_check_self (w g : Word) :
    ∀ f ∈ check w g, factViolated w f = false := by
  intro f hf
  rcases (mem_check w g f).mp hf with ⟨i, hi, rfl⟩
  unfold checkFactAt
  by_cases h1 : g.getD i ' ' = w.getD i ' '
  · rw [if_pos h1]
    show (w.getD i ' ' != g.getD i ' ') = false
    rw [h1]
    simp
  · rw [if_neg h1]
    by_cases h2 : w.contains (g.getD i ' ') = true
    · rw [if_pos h2]
      show (w.getD i ' ' == g.getD i ' ' || !(w.contains (g.getD i ' '))) = false
      rw [h2]
      simp only [Bool.not_true, Bool.or_false, beq_eq_false_iff_ne, ne_eq]
      exact fun hcontra => h1 hcontra.symm
    · rw [if_neg h2]
      show w.contains (g.getD i ' ') = false
      simp only [Bool.not_eq_true] at h2
      exact h2

/-- When `g ≠ w` (both of word length), `g` itself violates some fact of
`check w g`: the simulated feedback always rules the guess out. -/
theorem check_excludes_guess (w g : Word) (hw : w.length = WORD_LENGTH)
    (hg : g.length = WORD_LENGTH) (hne : g ≠ w) :
    ((check w g).any fun f => factViolated g f) = true := by
  have hex : ∃ i, i < WORD_LENGTH ∧ g.getD i ' ' ≠ w.getD i ' ' := by
    by_contra hall
    push_neg at hall
    apply hne
    apply List.ext_getElem (by omega)
    intro n h1 h2
    have hn := hall n (by omega)
    rwa [List.getD_eq_getElem _ _ h1, List.getD_eq_getElem _ _ h2] at hn
  rcases hex with ⟨i, hi, hnei⟩
  rw [List.any_eq_true]
  refine ⟨checkFactAt w g i, (mem_check w g _).mpr ⟨i, hi, rfl⟩, ?_⟩
  unfold checkFactAt
  rw [if_neg hnei]
  by_cases h2 : w.contains (g.getD i ' ') = true
  · rw [if_pos h2]
    show (g.getD i ' ' == g.getD i ' ' || !(g.contains (g.getD i ' '))) = true
    simp
  · rw [if_neg h2]
    show g.contains (g.getD i ' ') = true
    have hmem : g.getD i ' ' ∈ g := by
      rw [List.getD_eq_getElem _ _ (by omega)]
      exact List.getElem_mem _
    simpa using hmem

/-- The hypothetical secret `w` survives the filtering by its own simulated
feedback merged with facts it already satisfies. -/
theorem secret_mem_filtered (U : Words) (facts : Facts) (g w : Word)
    (hw : w ∈ U) (hfacts : (facts.any fun f => factViolated w f) = false) :
    w ∈ filter_words U (check w g ++ facts) := by
  rw [mem_filter_words]
  refine ⟨hw, ?_⟩
  rw [List.any_append, hfacts, Bool.or_false, List.any_eq_false]
  intro f hf
  simp [factViolated_check_self w g f hf]

theorem length_le_one_of_nodup_of_all_eq {α : Type} {l : List α} {w : α}
    (hnd : l.Nodup) (h : ∀ x ∈ l, x = w) : l.length ≤ 1 := by
  match l with
  | [] => simp
  | [_] => simp
  | x :: y :: t =>
    exfalso
    have hx := h x (by simp)
    have hy := h y (by simp)
    rw [List.nodup_cons] at hnd
    have hxy : x = y := hx.trans hy.symm
    exact hnd.1 (by rw [hxy]; exact List.mem_cons_self _ _)

/-- When the guess equals the hypothetical secret, the all-`Correct` feedback
collapses a duplicate-free universe of word-length words to at most one
candidate. -/
theorem filter_check_self_length (U : Words) (facts : Facts) (w : Word)
    (h5 : ∀ x ∈ U, x.length = WORD_LENGTH) (hnd : U.Nodup) (hw : w ∈ U) :
    (filter_words U (check w w ++ facts)).length ≤ 1 := by
  apply length_le_one_of_nodup_of_all_eq (filter_words_nodup _ _ hnd)
  intro x hx
  rw [mem_filter_words] at hx
  rcases hx with ⟨hxU, hany⟩
  rw [List.any_append, Bool.or_eq_false_iff] at hany
  have hany1 := hany.1
  rw [List.any_eq_false] at hany1
  apply List.ext_getElem (by rw [h5 x hxU, h5 w hw])
  intro n h1 h2
  have hn5 : n < WORD_LENGTH := by
    have := h5 x hxU
    omega
  have hno := hany1 (checkFactAt w w n) ((mem_check _ _ _).mpr ⟨n, hn5, rfl⟩)
  have hfact : checkFactAt w w n = build_fact Feedback.Correct (w.getD n ' ') n := by
    unfold checkFactAt
    rw [if_pos rfl]
  rw [hfact] at hno
  have hxw : x.getD n ' ' = w.getD n ' ' := by
    by_contra hc
    apply hno
    show (x.getD n ' ' != w.getD n ' ') = true
    simpa [bne_iff_ne] using hc
  rw [List.getD_eq_getElem _ _ h1, List.getD_eq_getElem _ _ h2] at hxw
  exact hxw

/-- Strict decrease of the candidate set along every recursive call of
`best_guess`, in a duplicate-free universe of word-length words. -/
theorem filtered_length_lt (U : Words) (facts : Facts) (g w : Word)
    (h5 : ∀ x ∈ U, x.length = WORD_LENGTH) (hnd : U.Nodup)
    (hg : g ∈ U) (hw : w ∈ U) (h2 : 2 ≤ U.length) :
    (filter_words U (check w g ++ facts)).length < U.length := by
  by_cases hne : g = w
  · subst hne
    have := filter_check_self_length U facts g h5 hnd hg
    omega
  · unfold filter_words
    rw [List.length_filter_lt_length_iff_exists]
    refine ⟨g, hg, ?_⟩
    intro hcontra
    rw [Bool.not_eq_true'] at hcontra
    rw [List.any_append] at hcontra
    have h1 := check_excludes_guess w g (h5 w hw) (h5 g hg) hne
    rw [h1] at hcontra
    simp at hcontra

/-- Main fuel-adequacy lemma: on a duplicate-free universe of word-length
words, fuel exceeding the candidate count makes `best_guess` return a result
whenever the candidate set is non-empty. -/
theorem best_guess_ok_of_fuel (fuel : Nat) :
    ∀ (words : Words) (facts : Facts),
      (∀ x ∈ words, x.length = WORD_LENGTH) → words.Nodup →
      (filter_words words facts).length < fuel →
      filter_words words facts ≠ [] →
      ∃ r, best_guess fuel words facts = Except.ok r := by
  induction fuel with
  | zero =>
    intro words facts _ _ hlt _
    omega
  | succ m ih =>
    intro words facts h5 hnd hlt hne
    by_cases h1 : (filter_words words facts).length = 1
    · rcases List.length_eq_one.mp h1 with ⟨w, hw⟩
      exact ⟨_, by rw [best_guess_succ, best_guess_core_one _ _ _ _ hw]⟩
    · have hpos : 0 < (filter_words words facts).length :=
        List.length_pos.mpr hne
      have h2 : 2 ≤ (filter_words words facts).length := by omega
      have hc5 : ∀ x ∈ filter_words words facts, x.length = WORD_LENGTH :=
        fun x hx => h5 x (mem_filter_words.mp hx).1
      have hcnd : (filter_words words facts).Nodup := filter_words_nodup _ _ hnd
      have hinner : ∀ g ∈ filter_words words facts,
          ∀ w ∈ filter_words words facts, ∃ b,
            best_guess m (filter_words words facts) (check w g ++ facts)
              = Except.ok b := by
        intro g hg w hw
        apply ih (filter_words words facts) (check w g ++ facts) hc5 hcnd
        · have := filtered_length_lt (filter_words words facts) facts g w
            hc5 hcnd hg hw h2
          omega
        · apply List.ne_nil_of_mem
          exact secret_mem_filtered (filter_words words facts) facts g w hw
            (mem_filter_words.mp hw).2
      have hGok : ∀ g ∈ filter_words words facts, ∃ b,
          (do
            let gs ← (filter_words words facts).foldlM (fun sum w => do
              let item ← best_guess m (filter_words words facts) (check w g ++ facts)
              pure (sum + item.guesses)) 0
            pure { guess := g, guesses := 1 + gs,
                   num_candidates := (filter_words words facts).length : GuessResult }
            : Except SolverError GuessResult) = Except.ok b := by
        intro g hg
        have hfold : (filter_words words facts).foldlM (fun sum w => do
            let item ← best_guess m (filter_words words facts) (check w g ++ facts)
            pure (sum + item.guesses)) 0
            = Except.ok (0 + ((filter_words words facts).map fun w =>
                guessesOf (best_guess m (filter_words words facts)
                  (check w g ++ facts))).sum) :=
          foldlM_guesses_total _ _ (hinner g hg) 0
        apply Exists.intro
        show ((filter_words words facts).foldlM (fun sum w => do
            let item ← best_guess m (filter_words words facts) (check w g ++ facts)
            pure (sum + item.guesses)) 0) >>= (fun gs =>
          pure { guess := g, guesses := 1 + gs,
                 num_candidates := (filter_words words facts).length : GuessResult })
            = _
        rw [hfold]
        rfl
      rcases mapM_ok_of_forall _ _ hGok with ⟨rs, hrs⟩
      have hlen : rs.length = (filter_words words facts).length :=
        ((mapM_ok_forall₂ _ _ _ hrs).length_eq).symm
      cases rs with
      | nil => rw [List.length_nil] at hlen; omega
      | cons r0 rest =>
        apply Exists.intro
        rw [best_guess_succ, best_guess_core_rec _ _ _ h2, hrs]
        rfl

theorem factViolated_eq_not_consistent (w : Word) (f : Fact) :
    factViolated w f = !(consistent_with w f) := by
  obtain ⟨l, p, fb⟩ := f
  cases fb with
  | Correct =>
    show (w.getD p ' ' != l) = !(w.getD p ' ' == l)
    rfl
  | Used =>
    show (w.getD p ' ' == l || !(w.contains l))
      = !((w.getD p ' ' != l) && w.contains l)
    cases hb : (w.getD p ' ' == l) <;> cases hc : w.contains l <;>
      simp only [bne, hb, hc, Bool.not_false, Bool.not_true, Bool.or_true,
        Bool.or_false, Bool.false_or, Bool.true_or, Bool.and_true,
        Bool.and_false, Bool.true_and, Bool.false_and]
  | NotUsed =>
    show w.contains l = !(!(w.contains l))
    simp

/-- Per-guess record produced inside `solve` for guess `g`, together with the
success of every inner `best_guess` call, extracted from a successful run. -/
theorem solve_ok_forall₂ (fuel : Nat) (words : Words) (guesses : Words)
    (rs : List GuessResult) (hok : solve fuel words guesses = Except.ok rs) :
    List.Forall₂ (fun g b =>
      (∀ w ∈ words, ∃ x, best_guess fuel words (check w g) = Except.ok x) ∧
      b = { guess := g,
            guesses := 1 + (words.map fun w =>
              guessesOf (best_guess fuel words (check w g))).sum,
            num_candidates := guesses.length }) guesses rs := by
  unfold solve at hok
  have h2 := mapM_ok_forall₂ _ _ _ hok
  apply List.Forall₂.imp ?_ h2
  intro g b hgb
  rcases (except_bind_ok _ _ _).mp hgb with ⟨gs, hfold, hpure⟩
  rw [except_pure_eq_ok] at hpure
  injection hpure with hb
  rcases foldlM_guesses_ok (fun w => best_guess fuel words (check w g))
    words 0 gs hfold with ⟨hall, hsum⟩
  refine ⟨hall, ?_⟩
  rw [← hb, hsum, Nat.zero_add]

/-! ### The claims -/

/-- **C2**: if the filtered candidate set has exactly one element, `best_guess`
returns that element with a guess count of exactly 1 and `num_candidates` 1. -/
theorem best_guess_singleton (fuel : Nat) (words : Words) (facts : Facts)
    (w : Word) (h : filter_words words facts = [w]) :
    best_guess (fuel + 1) words facts =
      Except.ok { guess := w, guesses := 1, num_candidates := 1 } := by
  rw [best_guess_succ, best_guess_core_one _ _ _ _ h]

theorem best_guess_singleton_witness :
    filter_words [wApple, wAngle] [build_fact Feedback.NotUsed 'p' 0] = [wAngle] ∧
    best_guess 1 [wApple, wAngle] [build_fact Feedback.NotUsed 'p' 0] =
      Except.ok { guess := wAngle, guesses := 1, num_candidates := 1 } :=
  ⟨rfl, best_guess_singleton 0 [wApple, wAngle]
    [build_fact Feedback.NotUsed 'p' 0] wAngle rfl⟩

/-- **C3**: an empty filtered candidate set makes `best_guess` fail with the
`invalidConstraintState` error (the Rust `panic!()`): no `GuessResult` is
returned. -/
theorem best_guess_empty_error (fuel : Nat) (words : Words) (facts : Facts)
    (h : filter_words words facts = []) :
    best_guess (fuel + 1) words facts =
      Except.error SolverError.invalidConstraintState := by
  rw [best_guess_succ, best_guess_core_nil _ _ _ h]

theorem best_guess_empty_error_witness :
    filter_words [wApple, wAngle, wAdobe] [build_fact Feedback.NotUsed 'a' 0] = [] ∧
    best_guess 1 [wApple, wAngle, wAdobe] [build_fact Feedback.NotUsed 'a' 0] =
      Except.error SolverError.invalidConstraintState :=
  ⟨rfl, best_guess_empty_error 0 [wApple, wAngle, wAdobe]
    [build_fact Feedback.NotUsed 'a' 0] rfl⟩

/-- **C4**: `check secret guess` produces exactly `WORD_LENGTH` facts, the
`i`-th carrying letter `guess[i]`, position `i`, and kind `Correct` when
`guess[i] = secret[i]`, else `Used` when `secret` contains `guess[i]`, else
`NotUsed`; and `check s s` is all `Correct`. -/
theorem check_feedback_spec (secret guess : Word)
    (hs : secret.length = WORD_LENGTH) (hg : guess.length = WORD_LENGTH) :
    (check secret guess).length = WORD_LENGTH ∧
    (∀ i, i < WORD_LENGTH →
      ((check secret guess).getD i default).letter = guess.getD i ' ' ∧
      ((check secret guess).getD i default).position = i ∧
      ((check secret guess).getD i default).feedback =
        (if guess.getD i ' ' = secret.getD i ' ' then Feedback.Correct
         else if secret.contains (guess.getD i ' ') then Feedback.Used
         else Feedback.NotUsed)) ∧
    ∀ i, i < WORD_LENGTH →
      ((check secret secret).getD i default).feedback = Feedback.Correct := by
  refine ⟨check_length _ _, ?_, ?_⟩
  · intro i hi
    rw [check_getD _ _ _ hi]
    unfold checkFactAt
    by_cases h1 : guess.getD i ' ' = secret.getD i ' '
    · rw [if_pos h1, if_pos h1]
      exact ⟨rfl, rfl, rfl⟩
    · rw [if_neg h1, if_neg h1]
      by_cases h2 : secret.contains (guess.getD i ' ') = true
      · rw [if_pos h2, if_pos h2]
        exact ⟨rfl, rfl, rfl⟩
      · rw [if_neg h2, if_neg h2]
        exact ⟨rfl, rfl, rfl⟩
  · intro i hi
    rw [check_getD _ _ _ hi]
    unfold checkFactAt
    rw [if_pos rfl]
    rfl

theorem check_feedback_spec_witness :
    wAngle.length = WORD_LENGTH ∧ wApple.length = WORD_LENGTH ∧
    ((check wAngle wApple).length = WORD_LENGTH ∧
    (∀ i, i < WORD_LENGTH →
      ((check wAngle wApple).getD i default).letter = wApple.getD i ' ' ∧
      ((check wAngle wApple).getD i default).position = i ∧
      ((check wAngle wApple).getD i default).feedback =
        (if wApple.getD i ' ' = wAngle.getD i ' ' then Feedback.Correct
         else if wAngle.contains (wApple.getD i ' ') then Feedback.Used
         else Feedback.NotUsed)) ∧
    ∀ i, i < WORD_LENGTH →
      ((check wAngle wAngle).getD i default).feedback = Feedback.Correct) :=
  ⟨rfl, rfl, check_feedback_spec wAngle wApple rfl rfl⟩

/-- **C5**: `filter_words` returns exactly the order-preserving subsequence of
`words` consisting of the words consistent (in the spec's sense,
`consistent_with`) with every fact: no consistent word is excluded and no
inconsistent word is included. -/
theorem filter_words_spec (words : Words) (facts : Facts) :
    filter_words words facts
      = words.filter (fun w => facts.all fun f => consistent_with w f) ∧
    (filter_words words facts).Sublist words ∧
    ∀ w, w ∈ filter_words words facts ↔
      w ∈ words ∧ ∀ f ∈ facts, consistent_with w f = true := by
  have hpred : ∀ w : Word, (!(facts.any fun f => factViolated w f))
      = facts.all fun f => consistent_with w f := by
    intro w
    rw [List.all_eq_not_any_not]
    have heq : (fun f => factViolated w f) = fun f => !(consistent_with w f) :=
      funext fun f => factViolated_eq_not_consistent w f
    rw [heq]
  refine ⟨?_, filter_words_sublist words facts, ?_⟩
  · unfold filter_words
    exact List.filter_congr fun w _ => hpred w
  · intro w
    rw [mem_filter_words]
    constructor
    · rintro ⟨hmem, hany⟩
      refine ⟨hmem, ?_⟩
      intro f hf
      rw [List.any_eq_false] at hany
      have hv := hany f hf
      rw [factViolated_eq_not_consistent] at hv
      simpa using hv
    · rintro ⟨hmem, hall⟩
      refine ⟨hmem, ?_⟩
      rw [List.any_eq_false]
      intro f hf
      rw [factViolated_eq_not_consistent]
      simp [hall f hf]

theorem filter_words_spec_witness :
    filter_words [wApple, wAngle, wAdobe] [build_fact Feedback.Correct 'a' 0]
      = ([wApple, wAngle, wAdobe] : Words).filter
        (fun w => ([build_fact Feedback.Correct 'a' 0] : Facts).all
          fun f => consistent_with w f) ∧
    (filter_words [wApple, wAngle, wAdobe]
      [build_fact Feedback.Correct 'a' 0]).Sublist [wApple, wAngle, wAdobe] ∧
    ∀ w, w ∈ filter_words [wApple, wAngle, wAdobe]
        [build_fact Feedback.Correct 'a' 0] ↔
      w ∈ ([wApple, wAngle, wAdobe] : Words) ∧
      ∀ f ∈ ([build_fact Feedback.Correct 'a' 0] : Facts),
        consistent_with w f = true :=
  filter_words_spec [wApple, wAngle, wAdobe] [build_fact Feedback.Correct 'a' 0]

/-- **C6**: adding a fact to a fact set never enlarges the filtered candidate
set: the new candidate list is a subsequence of the old one. -/
theorem filter_words_fact_added_sublist (words : Words) (facts : Facts) (f : Fact) :
    (filter_words words (f :: facts)).Sublist (filter_words words facts) := by
  unfold filter_words
  apply List.monotone_filter_right
  intro w hw
  simp only [List.any_cons, Bool.not_or, Bool.and_eq_true] at hw
  exact hw.2

theorem filter_words_fact_added_sublist_witness :
    (filter_words [wApple, wAngle, wAdobe]
      (build_fact Feedback.NotUsed 'p' 0
        :: [build_fact Feedback.Correct 'a' 0])).Sublist
      (filter_words [wApple, wAngle, wAdobe]
        [build_fact Feedback.Correct 'a' 0]) :=
  filter_words_fact_added_sublist [wApple, wAngle, wAdobe]
    [build_fact Feedback.Correct 'a' 0] (build_fact Feedback.NotUsed 'p' 0)

/-- **C7**: the secret `w` is consistent with every fact of `check w g`, so it
survives filtering by its own feedback: `w ∈ filter_words words (check w g)`
whenever `w ∈ words`. -/
theorem secret_survives_own_feedback (w g : Word) (words : Words) (hw : w ∈ words) :
    (∀ f ∈ check w g, consistent_with w f = true) ∧
    w ∈ filter_words words (check w g) := by
  constructor
  · intro f hf
    have hv := factViolated_check_self w g f hf
    rw [factViolated_eq_not_consistent] at hv
    simpa using hv
  · rw [mem_filter_words]
    refine ⟨hw, ?_⟩
    rw [List.any_eq_false]
    intro f hf
    simp [factViolated_check_self w g f hf]

theorem secret_survives_own_feedback_witness :
    wApple ∈ ([wApple, wAngle] : Words) ∧
    ((∀ f ∈ check wApple wAngle, consistent_with wApple f = true) ∧
      wApple ∈ filter_words [wApple, wAngle] (check wApple wAngle)) :=
  ⟨by simp, secret_survives_own_feedback wApple wAngle [wApple, wAngle] (by simp)⟩

/-- **C9**: with no duplicate words (of the fixed word length), `best_guess`
terminates: fuel exceeding the candidate count is never exhausted, because
every recursive call strictly shrinks the filtered candidate set. -/
theorem best_guess_terminates (words : Words) (facts : Facts) (fuel : Nat)
    (h5 : ∀ w ∈ words, w.length = WORD_LENGTH) (hnd : words.Nodup)
    (hfuel : (filter_words words facts).length < fuel) :
    best_guess fuel words facts ≠ Except.error SolverError.outOfFuel ∧
    ∀ g ∈ filter_words words facts, ∀ w ∈ filter_words words facts,
      2 ≤ (filter_words words facts).length →
      (filter_words (filter_words words facts) (check w g ++ facts)).length
        < (filter_words words facts).length := by
  constructor
  · by_cases hne : filter_words words facts = []
    · cases fuel with
      | zero =>
        rw [hne] at hfuel
        simp at hfuel
      | succ m =>
        rw [best_guess_succ, best_guess_core_nil _ _ _ hne]
        simp
    · rcases best_guess_ok_of_fuel fuel words facts h5 hnd hfuel hne with ⟨r, hr⟩
      rw [hr]
      simp
  · intro g hg w hw h2
    exact filtered_length_lt _ _ _ _ (fun x hx => h5 x (mem_filter_words.mp hx).1)
      (filter_words_nodup _ _ hnd) hg hw h2

theorem best_guess_terminates_witness :
    (∀ w ∈ ([wApple, wAngle] : Words), w.length = WORD_LENGTH) ∧
    ([wApple, wAngle] : Words).Nodup ∧
    (filter_words [wApple, wAngle] []).length < 3 ∧
    (best_guess 3 [wApple, wAngle] [] ≠ Except.error SolverError.outOfFuel ∧
      ∀ g ∈ filter_words [wApple, wAngle] [],
        ∀ w ∈ filter_words [wApple, wAngle] [],
        2 ≤ (filter_words [wApple, wAngle] []).length →
        (filter_words (filter_words [wApple, wAngle] [])
          (check w g ++ [])).length
          < (filter_words [wApple, wAngle] []).length) :=
  ⟨by decide, by decide, by decide,
    best_guess_terminates [wApple, wAngle] [] 3 (by decide) (by decide) (by decide)⟩

/-- **C10**: every `GuessResult` returned by ranking-mode `solve` carries
`num_candidates` equal to the length of the guess list. -/
theorem solve_num_candidates_eq (fuel : Nat) (words : Words) (guesses : Words)
    (rs : List GuessResult) (hok : solve fuel words guesses = Except.ok rs) :
    ∀ r ∈ rs, r.num_candidates = guesses.length := by
  have hf := solve_ok_forall₂ fuel words guesses rs hok
  intro r hr
  rcases List.mem_iff_getElem.mp hr with ⟨i, hilt, hEq⟩
  have hlen := hf.length_eq
  rw [List.forall₂_iff_get] at hf
  have hR := hf.2 i (by omega) (by omega)
  rw [List.get_eq_getElem, List.get_eq_getElem] at hR
  rw [← hEq, hR.2]

theorem solve_num_candidates_eq_witness :
    solve 1 [wApple, wAngle] [wApple, wAngle] =
      Except.ok [{ guess := wApple, guesses := 3, num_candidates := 2 },
        { guess := wAngle, guesses := 3, num_candidates := 2 }] ∧
    ∀ r ∈ [({ guess := wApple, guesses := 3, num_candidates := 2 } : GuessResult),
        { guess := wAngle, guesses := 3, num_candidates := 2 }],
      r.num_candidates = ([wApple, wAngle] : Words).length :=
  ⟨rfl, solve_num_candidates_eq 1 [wApple, wAngle] [wApple, wAngle] _ rfl⟩

/-- **C8**: ranking-mode `solve` returns one `GuessResult` per candidate
guess, in guess-list order, whose `guesses` field is `1 +` the sum over every
possible secret `w` in `words` of the guess count of
`best_guess words (check w g)` (the §4.3 step-4 cost formula applied once at
the top level). -/
theorem solve_ranking_spec (fuel : Nat) (words : Words) (guesses : Words)
    (rs : List GuessResult) (hok : solve fuel words guesses = Except.ok rs) :
    rs.length = guesses.length ∧
    ∀ i, i < guesses.length →
      (∀ w ∈ words, ∃ x,
        best_guess fuel words (check w (guesses.getD i [])) = Except.ok x) ∧
      rs.getD i default =
        { guess := guesses.getD i [],
          guesses := 1 + (words.map fun w =>
            guessesOf (best_guess fuel words (check w (guesses.getD i [])))).sum,
          num_candidates := guesses.length } := by
  have hf := solve_ok_forall₂ fuel words guesses rs hok
  have hlen := hf.length_eq
  refine ⟨hlen.symm, ?_⟩
  intro i hi
  rw [List.forall₂_iff_get] at hf
  have hR := hf.2 i (by omega) (by omega)
  rw [List.get_eq_getElem, List.get_eq_getElem] at hR
  rw [List.getD_eq_getElem guesses [] (by omega),
    List.getD_eq_getElem rs default (by omega)]
  exact hR

theorem solve_ranking_spec_witness :
    solve 1 [wApple, wAngle] [wApple, wAngle] =
      Except.ok [{ guess := wApple, guesses := 3, num_candidates := 2 },
        { guess := wAngle, guesses := 3, num_candidates := 2 }] ∧
    (([({ guess := wApple, guesses := 3, num_candidates := 2 } : GuessResult),
        { guess := wAngle, guesses := 3, num_candidates := 2 }]).length
        = ([wApple, wAngle] : Words).length ∧
      ∀ i, i < ([wApple, wAngle] : Words).length →
        (∀ w ∈ ([wApple, wAngle] : Words), ∃ x,
          best_guess 1 [wApple, wAngle]
            (check w (([wApple, wAngle] : Words).getD i [])) = Except.ok x) ∧
        ([({ guess := wApple, guesses := 3, num_candidates := 2 } : GuessResult),
          { guess := wAngle, guesses := 3, num_candidates := 2 }]).getD i default =
          { guess := ([wApple, wAngle] : Words).getD i [],
            guesses := 1 + (([wApple, wAngle] : Words).map fun w =>
              guessesOf (best_guess 1 [wApple, wAngle]
                (check w (([wApple, wAngle] : Words).getD i [])))).sum,
            num_candidates := ([wApple, wAngle] : Words).length }) :=
  ⟨rfl, solve_ranking_spec 1 [wApple, wAngle] [wApple, wAngle] _ rfl⟩

/-- **C1**: in the recursive case (at least 2 candidates), a successful
`best_guess` returns the first candidate in candidate-list order achieving
the minimal `cost` (ties resolved to the earliest), with `guesses` equal to
that minimal cost and `num_candidates` the candidate count; every inner
recursive call searches the already-filtered candidate universe and
succeeds. -/
theorem best_guess_min_cost (fuel : Nat) (words : Words) (facts : Facts)
    (r : GuessResult) (h2 : 2 ≤ (filter_words words facts).length)
    (hok : best_guess (fuel + 1) words facts = Except.ok r) :
    (∀ g ∈ filter_words words facts, ∀ w ∈ filter_words words facts,
      ∃ x, best_guess fuel (filter_words words facts) (check w g ++ facts)
        = Except.ok x) ∧
    r.num_candidates = (filter_words words facts).length ∧
    ∃ i, i < (filter_words words facts).length ∧
      r.guess = (filter_words words facts).getD i [] ∧
      r.guesses = cost fuel (filter_words words facts) facts
        ((filter_words words facts).getD i []) ∧
      (∀ j, j < (filter_words words facts).length →
        r.guesses ≤ cost fuel (filter_words words facts) facts
          ((filter_words words facts).getD j [])) ∧
      ∀ j, j < i →
        r.guesses < cost fuel (filter_words words facts) facts
          ((filter_words words facts).getD j []) := by
  rw [best_guess_succ, best_guess_core_rec _ _ _ h2] at hok
  rcases (except_bind_ok _ _ _).mp hok with ⟨rs, hrs, hmatch⟩
  have hf2 := mapM_ok_forall₂ _ _ _ hrs
  have hlen := hf2.length_eq
  rw [List.forall₂_iff_get] at hf2
  have helem : ∀ j, j < rs.length →
      (∀ w ∈ filter_words words facts, ∃ x,
        best_guess fuel (filter_words words facts)
          (check w ((filter_words words facts).getD j []) ++ facts)
          = Except.ok x) ∧
      rs.getD j default =
        { guess := (filter_words words facts).getD j [],
          guesses := cost fuel (filter_words words facts) facts
            ((filter_words words facts).getD j []),
          num_candidates := (filter_words words facts).length } := by
    intro j hj
    have hR := hf2.2 j (by omega) (by omega)
    rw [List.get_eq_getElem, List.get_eq_getElem] at hR
    rcases (except_bind_ok _ _ _).mp hR with ⟨gs, hfold, hpure⟩
    rw [except_pure_eq_ok] at hpure
    injection hpure with hb
    rcases foldlM_guesses_ok _ (filter_words words facts) 0 gs hfold with
      ⟨hall, hsum⟩
    rw [List.getD_eq_getElem (filter_words words facts) [] (by omega),
      List.getD_eq_getElem rs default (by omega)]
    refine ⟨hall, ?_⟩
    rw [← hb, hsum, Nat.zero_add]
    unfold cost
    rfl
  cases rs with
  | nil =>
    exfalso
    rw [List.length_nil] at hlen
    omega
  | cons r0 rest =>
    have hmatch2 : Except.ok
        (rest.foldl (fun b gr => if gr.guesses < b.guesses then gr else b) r0)
        = Except.ok r := hmatch
    injection hmatch2 with hr
    rcases foldl_min_first GuessResult.guesses default r0 rest with
      ⟨i, hilt, heq, hmin, hstrict⟩
    have hri : r = (r0 :: rest).getD i default := hr.symm.trans heq.symm
    have hreci := (helem i hilt).2
    have hrrec : r =
        { guess := (filter_words words facts).getD i [],
          guesses := cost fuel (filter_words words facts) facts
            ((filter_words words facts).getD i []),
          num_candidates := (filter_words words facts).length } :=
      hri.trans hreci
    refine ⟨?_, ?_, i, by omega, ?_, ?_, ?_, ?_⟩
    · intro g hg w hw
      rcases List.mem_iff_getElem.mp hg with ⟨j, hjlt, hjeq⟩
      have hj := (helem j (by omega)).1 w hw
      rw [List.getD_eq_getElem _ _ hjlt, hjeq] at hj
      exact hj
    · rw [hrrec]
    · rw [hrrec]
    · rw [hrrec]
    · intro j hj
      have hle := hmin j (by omega)
      rw [hr, (helem j (by omega)).2] at hle
      exact hle
    · intro j hj
      have hlt := hstrict j hj
      rw [hr, (helem j (by omega)).2] at hlt
      exact hlt

theorem best_guess_min_cost_witness :
    2 ≤ (filter_words [wApple, wAngle] []).length ∧
    ((∀ g ∈ filter_words [wApple, wAngle] [],
      ∀ w ∈ filter_words [wApple, wAngle] [],
      ∃ x, best_guess 1 (filter_words [wApple, wAngle] []) (check w g ++ [])
        = Except.ok x) ∧
    ({ guess := wApple, guesses := 3, num_candidates := 2 }
      : GuessResult).num_candidates = (filter_words [wApple, wAngle] []).length ∧
    ∃ i, i < (filter_words [wApple, wAngle] []).length ∧
      ({ guess := wApple, guesses := 3, num_candidates := 2 }
        : GuessResult).guess = (filter_words [wApple, wAngle] []).getD i [] ∧
      ({ guess := wApple, guesses := 3, num_candidates := 2 }
        : GuessResult).guesses = cost 1 (filter_words [wApple, wAngle] []) []
        ((filter_words [wApple, wAngle] []).getD i []) ∧
      (∀ j, j < (filter_words [wApple, wAngle] []).length →
        ({ guess := wApple, guesses := 3, num_candidates := 2 }
          : GuessResult).guesses ≤ cost 1 (filter_words [wApple, wAngle] []) []
          ((filter_words [wApple, wAngle] []).getD j [])) ∧
      ∀ j, j < i →
        ({ guess := wApple, guesses := 3, num_candidates := 2 }
          : GuessResult).guesses < cost 1 (filter_words [wApple, wAngle] []) []
          ((filter_words [wApple, wAngle] []).getD j [])) :=
  ⟨by decide, best_guess_min_cost 1 [wApple, wAngle] []
    { guess := wApple, guesses := 3, num_candidates := 2 } (by decide) rfl⟩

end Wordle
